import Mathlib

/-!
Verification development for the extraDistr distribution primitives
(categorical, multinomial, GEV, Kumaraswamy, power, discrete normal).

Modelling conventions, shared by every embedded function:
* C++ `double` values flowing through the evaluators are modelled as real
  numbers; the IEEE special values an evaluator can *produce* are modelled
  explicitly by the type `Dbl` below (`nan`, `-inf`, `+inf`, finite).
  Caller-supplied numbers are modelled as finite reals (the `ISNAN` input
  guards of the C++ code therefore never fire and are omitted).
* The purely arithmetic evaluators (categorical, multinomial), whose
  computations are sums and comparisons only, are embedded over `ℚ` so that
  concrete runs are decidable; `NaN` outputs are `Option.none`.
* `Rcpp::NumericVector` / `NumericMatrix` are `List`s (a matrix is the list
  of its rows); `v[i]` with an in-bounds index is `List.getD`, and a read
  at a raw (possibly out-of-bounds) index is `List.get?`, so that an
  out-of-bounds access is visible as `none`.
* `std::pow` is only applied on branches where C `pow` agrees with
  `Real.rpow` (nonnegative base); branch-specific caveats are noted on the
  definitions they concern.
-/

/-- The values a C++ `double` expression can take in the evaluators:
not-a-number, the two infinities, or a finite real. -/
inductive Dbl where
  | nan : Dbl
  | ninf : Dbl
  | pinf : Dbl
  | fin : ℝ → Dbl

/-- The transform `p := 1 - p` applied to a double (used by the
upper-tail post-processing loops). -/
def oneSub : Dbl → Dbl
  | Dbl.nan => Dbl.nan
  | Dbl.ninf => Dbl.pinf
  | Dbl.pinf => Dbl.ninf
  | Dbl.fin v => Dbl.fin (1 - v)

/-- `std::exp` on a double: `exp(-inf) = 0`, `exp(+inf) = +inf`. -/
noncomputable def dexp : Dbl → Dbl
  | Dbl.nan => Dbl.nan
  | Dbl.ninf => Dbl.fin 0
  | Dbl.pinf => Dbl.pinf
  | Dbl.fin v => Dbl.fin (Real.exp v)

/-- `std::log` on a double: `log 0 = -inf`, `log` of a negative is NaN. -/
noncomputable def dlog : Dbl → Dbl
  | Dbl.nan => Dbl.nan
  | Dbl.ninf => Dbl.nan
  | Dbl.pinf => Dbl.pinf
  | Dbl.fin v => if v < 0 then Dbl.nan else if v = 0 then Dbl.ninf else Dbl.fin (Real.log v)

/-- A rational evaluator output (`none` = NaN) viewed as a double. -/
def QtoD : Option ℚ → Dbl
  | none => Dbl.nan
  | some v => Dbl.fin (v : ℝ)

/-! ## Categorical distribution (categorical-distribution.cpp)

The four exported functions share one probability-row scanning discipline:
walk the row, break on the first entry outside `[0,1]` (`wrong_p`), and
accumulate the running sum of the entries seen before the break. -/

/-- The validation/summation loop `while (j < k) { if (prob < 0 || prob > 1)
break; acc += prob; j++ }`: returns `(wrong_p, final accumulator, number of
entries consumed)`. -/
def scanRow : List ℚ → ℚ → Bool × ℚ × ℕ
  | [], acc => (false, acc, 0)
  | q :: rest, acc =>
    if q < 0 ∨ 1 < q then (true, acc, 0)
    else
      let r := scanRow rest (acc + q)
      (r.1, r.2.1, r.2.2 + 1)

/-- The cumulative-search loop `while (cs_prob < p && j < k) { if (prob < 0
|| prob > 1) break; cs_prob += prob; j++ }`: returns `(wrong_p, cs_prob,
j)`. -/
def qscan (pv : ℚ) : List ℚ → ℚ → Bool × ℚ × ℕ
  | [], acc => (false, acc, 0)
  | q :: rest, acc =>
    if ¬ acc < pv then (false, acc, 0)
    else if q < 0 ∨ 1 < q then (true, acc, 0)
    else
      let r := qscan pv rest (acc + q)
      (r.1, r.2.1, r.2.2 + 1)

/-- Loop body of `cpp_dcat` for one output position, given the value `x[i]`
and the recycled row `prob(i % np, ·)`.  `none` models the NaN output. -/
def dcat1 (xv : ℚ) (row : List ℚ) : Option ℚ :=
  let s := scanRow row 0
  if s.2.1 ≠ 1 ∨ s.1 = true then none
  else if xv < 1 ∨ (row.length : ℚ) < xv ∨ (⌊xv⌋ : ℚ) ≠ xv then some 0
  else some (row.getD (⌊xv⌋ - 1).toNat 0)

/-- Loop body of `cpp_pcat` for one output position: the first loop sums the
prefix `row[0 .. min((int)x, k))` (breaking on a bad entry), the second
continues from the stopping index to validate the rest of the row. -/
def pcat1 (xv : ℚ) (row : List ℚ) : Option ℚ :=
  if xv < 1 then some 0
  else if (row.length : ℚ) < xv then some 1
  else
    let m := min (⌊xv⌋).toNat row.length
    let f := scanRow (row.take m) 0
    let s := scanRow (row.drop f.2.2) f.2.1
    if s.2.1 ≠ 1 ∨ (f.1 = true ∨ s.1 = true) then none
    else some f.2.1

/-- Loop body of `cpp_qcat` for one output position (after the log/tail
transforms of `p` have been applied): scan until the cumulative sum first
reaches `p`, set `q` to the stopping index (`1` when `p = 0`), then keep
scanning to validate the remaining suffix.  The `IntegerVector` output is
modelled as `Option ℕ` (`none` = the NaN/NA sentinel). -/
def qcat1 (pv : ℚ) (row : List ℚ) : Option ℕ :=
  if pv < 0 ∨ 1 < pv then none
  else
    let f := qscan pv row 0
    let q0 : ℕ := if pv = 0 then 1 else f.2.2
    let s := scanRow (row.drop f.2.2) f.2.1
    if s.2.1 ≠ 1 ∨ (f.1 = true ∨ s.1 = true) then none
    else some q0

/-- Loop body of `cpp_rcat` for one draw, with the uniform variate `u`
supplied explicitly: identical to `qcat1` without the `p ∈ [0,1]` guard and
without the `p = 0` special case. -/
def rcat1 (u : ℚ) (row : List ℚ) : Option ℕ :=
  let f := qscan u row 0
  let s := scanRow (row.drop f.2.2) f.2.1
  if s.2.1 ≠ 1 ∨ (f.1 = true ∨ s.1 = true) then none
  else some f.2.2

/-- Helper for `dcat_loop`: run the loop body over the listed positions,
aborting the whole call (`none`) as soon as a body performs an out-of-bounds
read of `x`. -/
def dcat_go (x : List ℚ) (prob : List (List ℚ)) : List ℕ → Option (List (Option ℚ))
  | [] => some []
  | i :: is =>
    match x.get? i with
    | none => none
    | some xv => (dcat_go x prob is).map (dcat1 xv (prob.getD (i % prob.length) []) :: ·)

/-- The `i`-loop of `cpp_dcat`: output length `Nmax = max(n, np)`; the row is
read at `i % np`, but `x` is read at the raw index `i` (this is what the C++
source does: `x[i]`, not `x[i % n]`), so a position with `i ≥ n` performs an
out-of-bounds read, modelled by the whole call being `none`. -/
def dcat_loop (x : List ℚ) (prob : List (List ℚ)) : Option (List (Option ℚ)) :=
  dcat_go x prob (List.range (max x.length prob.length))

/-- `cpp_dcat`: the loop above followed by the `log_prob` post-transform. -/
noncomputable def cpp_dcat (x : List ℚ) (prob : List (List ℚ)) (log_prob : Bool) :
    Option (List Dbl) :=
  (dcat_loop x prob).map
    (fun p => if log_prob then p.map (fun v => dlog (QtoD v)) else p.map QtoD)

/-- A row all of whose entries pass the code's range test `¬(p < 0 ∨ 1 < p)`. -/
def goodL (l : List ℚ) : Prop := ∀ p ∈ l, 0 ≤ p ∧ p ≤ 1

instance (l : List ℚ) : Decidable (goodL l) := List.decidableBAll _ l

/-- The validity condition the categorical/multinomial scans enforce: every
entry in `[0,1]` and the full row summing to exactly `1`. -/
def validRow (l : List ℚ) : Prop := goodL l ∧ l.sum = 1

instance (l : List ℚ) : Decidable (validRow l) := instDecidableAnd

/-! ## Multinomial distribution (multinomial-distribution.cpp) -/

/-- State of the `cpp_dmnom` per-position scan: the two break flags, the
running sums of probabilities and counts, and the two log-scale
accumulators `Σ lfactorial(x_j)` and `Σ x_j · log(p_j)`. -/
structure MScan where
  wrongP : Bool
  wrongX : Bool
  sumP : ℚ
  sumX : ℚ
  xfac : ℝ
  powpx : ℝ

/-- The `j`-loop of `cpp_dmnom` over the recycled probability row and count
row (the code guarantees both have `k` entries): check the probability entry
(break with `wrong_p`), then the count entry (break with `wrong_x`), then
accumulate.  The host primitive `lfactorial` is passed in as a trusted
function parameter. -/
noncomputable def dmnomScan (lfact : ℚ → ℝ) : List ℚ → List ℚ → MScan
  | pj :: prest, xj :: xrest =>
    if pj < 0 ∨ 1 < pj then ⟨true, false, 0, 0, 0, 0⟩
    else if xj < 0 ∨ (⌊xj⌋ : ℚ) ≠ xj then ⟨false, true, 0, 0, 0, 0⟩
    else
      let r := dmnomScan lfact prest xrest
      ⟨r.wrongP, r.wrongX, pj + r.sumP, xj + r.sumX, lfact xj + r.xfac,
        Real.log (pj : ℝ) * (xj : ℝ) + r.powpx⟩
  | _, _ => ⟨false, false, 0, 0, 0, 0⟩

/-- Loop body of `cpp_dmnom` for one output position (log scale): the
structural check (`-∞`) is tested before the simplex check (NaN); both use
the sums as truncated by any early break of the scan. -/
noncomputable def dmnom1 (lfact : ℚ → ℝ) (xrow : List ℚ) (size : ℚ)
    (prow : List ℚ) : Dbl :=
  let s := dmnomScan lfact prow xrow
  if (⌊size⌋ : ℚ) ≠ size ∨ s.sumX < 0 ∨ s.sumX ≠ size ∨ s.wrongX = true then
    Dbl.ninf
  else if s.sumP ≠ 1 ∨ s.wrongP = true then Dbl.nan
  else Dbl.fin (lfact size - s.xfac + s.powpx)

/-- `cpp_dmnom` for one position including the final `log_prob` transform
(`exp` is applied when raw probabilities were requested). -/
noncomputable def cpp_dmnom1 (lfact : ℚ → ℝ) (xrow : List ℚ) (size : ℚ)
    (prow : List ℚ) (log_prob : Bool) : Dbl :=
  if log_prob then dmnom1 lfact xrow size prow
  else dexp (dmnom1 lfact xrow size prow)

/-- A count row all of whose entries pass the code's test `¬(x < 0 ∨
floor(x) ≠ x)`. -/
def goodCounts (l : List ℚ) : Prop := ∀ c ∈ l, 0 ≤ c ∧ (⌊c⌋ : ℚ) = c

instance (l : List ℚ) : Decidable (goodCounts l) := List.decidableBAll _ l

/-- A structurally possible multinomial outcome: nonnegative integer counts
summing to `size`, with `size` itself an integer (hence nonnegative). -/
def structOK (xrow : List ℚ) (size : ℚ) : Prop :=
  goodCounts xrow ∧ xrow.sum = size ∧ (⌊size⌋ : ℚ) = size

instance (xrow : List ℚ) (size : ℚ) : Decidable (structOK xrow size) :=
  instDecidableAnd

/-- One call `R::rbinom(trials, p)` as recorded by the instrumented sampler:
the arguments the code passes to the host binomial source. -/
structure BinCall where
  trials : ℤ
  p : ℚ
deriving DecidableEq

/-- State of one `cpp_rmnom` output row: the drawn counts, the remaining
budget `size_left`, the running probability sum, the break flag and the
recorded binomial calls in order. -/
structure MnomDraw where
  counts : List ℤ
  szLeft : ℤ
  sumP : ℚ
  wrongP : Bool
  calls : List BinCall

/-- The `j`-loop of `cpp_rmnom` over the first `k-1` probability entries,
with the host binomial source modelled as an explicit stream `draws` of
results consumed in order.  `p0` is the value `prob[i % np]`: the C++ code
indexes the probability matrix with a single (column-major linear) index
`i % np`, which — since `i % np < np = nrow` — is element `(i % np, 0)`,
the recycled row's FIRST entry, and passes it as the success probability
of every binomial draw. -/
def rmnomDraws (p0 : ℚ) : List ℚ → ℤ → List ℤ → MnomDraw
  | [], szLeft, _ => ⟨[], szLeft, 0, false, []⟩
  | pj :: rest, szLeft, draws =>
    if pj < 0 ∨ 1 < pj then ⟨[], szLeft, 0, true, []⟩
    else
      let d := draws.headD 0
      let r := rmnomDraws p0 rest (szLeft - d) draws.tail
      ⟨d :: r.counts, r.szLeft, pj + r.sumP, r.wrongP, ⟨szLeft, p0⟩ :: r.calls⟩

/-- One output row of `cpp_rmnom`: run the draw loop over categories
`0..k-2`, give the last category the remaining budget exactly (no draw),
then overwrite every entry with the NaN sentinel if the (truncated)
validation `sum_p != 1 || wrong_p` failed.  Returns the row of counts
(`none` = sentinel) and the recorded binomial calls. -/
def cpp_rmnom_row (row : List ℚ) (size : ℤ) (draws : List ℤ) :
    List (Option ℤ) × List BinCall :=
  let k := row.length
  let r := rmnomDraws (row.getD 0 0) (row.take (k - 1)) size draws
  let pre := r.counts ++ List.replicate (k - 1 - r.counts.length) 0 ++ [r.szLeft]
  (if r.sumP ≠ 1 ∨ r.wrongP = true then List.replicate k none else pre.map some,
    r.calls)

/-! ## Generalized extreme value distribution (gev-distribution.cpp)

`pow` is only applied on branches where its base is positive, where C `pow`
agrees with `Real.rpow`; `invcdf_gev` at `p = 0` goes through C's infinite
intermediate `log(0)` which this finite-real embedding does not model (the
claims only touch `p = 1`, decided before any logarithm). -/

/-- `pdf_gev` (σ ≤ 0 gives NaN, density 0 outside `1 + ξz > 0`). -/
noncomputable def pdf_gev (x mu sigma xi : ℝ) : Dbl :=
  if sigma ≤ 0 then Dbl.nan
  else
    let z := (x - mu) / sigma
    if 0 < 1 + xi * z then
      if xi ≠ 0 then
        Dbl.fin (1/sigma * (1 + xi*z) ^ (-1 - 1/xi) *
          Real.exp (-(1 + xi*z) ^ (-1/xi)))
      else Dbl.fin (1/sigma * Real.exp (-z) * Real.exp (-Real.exp (-z)))
    else Dbl.fin 0

/-- `invcdf_gev` (NaN for σ ≤ 0 or p outside `[0,1]`; `p = 1` gives +∞). -/
noncomputable def invcdf_gev (p mu sigma xi : ℝ) : Dbl :=
  if sigma ≤ 0 ∨ p < 0 ∨ 1 < p then Dbl.nan
  else if p = 1 then Dbl.pinf
  else if xi ≠ 0 then Dbl.fin (mu - sigma/xi * (1 - (-Real.log p) ^ (-xi)))
  else Dbl.fin (mu - sigma * Real.log (-Real.log p))

/-- `cpp_qgev`: the only quantile wrapper that CLONES `p` before the
`exp`/`1-p` input transforms; the caller's array (first component of the
result) is returned unchanged. -/
noncomputable def cpp_qgev (p mu sigma xi : List ℝ)
    (lower_tail log_prob : Bool) : List ℝ × List Dbl :=
  let pp1 := if log_prob then p.map Real.exp else p
  let pp := if lower_tail then pp1 else pp1.map (fun v => 1 - v)
  let q := (List.range
      (max p.length (max mu.length (max sigma.length xi.length)))).map
    (fun i => invcdf_gev (pp.getD (i % p.length) 0) (mu.getD (i % mu.length) 0)
      (sigma.getD (i % sigma.length) 0) (xi.getD (i % xi.length) 0))
  (p, q)

/-! ## Kumaraswamy distribution (kumaraswamy-distribution.cpp) -/

/-- `cdf_kumar`: NaN for non-positive shapes, the closed form on `[0,1]`,
and 0 everywhere OUTSIDE `[0,1]` — above the support as well as below. -/
noncomputable def cdf_kumar (x a b : ℝ) : Dbl :=
  if a ≤ 0 ∨ b ≤ 0 then Dbl.nan
  else if 0 ≤ x ∧ x ≤ 1 then Dbl.fin (1 - (1 - x ^ a) ^ b)
  else Dbl.fin 0

/-- `invcdf_kumar` (NaN for bad shapes or `p` outside `[0,1]`). -/
noncomputable def invcdf_kumar (p a b : ℝ) : Dbl :=
  if a ≤ 0 ∨ b ≤ 0 ∨ p < 0 ∨ 1 < p then Dbl.nan
  else Dbl.fin ((1 - (1 - p) ^ (1/b)) ^ (1/a))

/-- Loop bodies of `cpp_pkumar` for one position: raw cdf, then the
`!lower_tail` complement in probability space, then `log` if requested. -/
noncomputable def pkumar1 (x a b : ℝ) (lower_tail log_prob : Bool) : Dbl :=
  let p := cdf_kumar x a b
  let p2 := if lower_tail then p else oneSub p
  if log_prob then dlog p2 else p2

/-- `cpp_qkumar`: the input transforms `p = exp(p)` (when `log_prob`) and
`p = 1-p` (when `!lower_tail`) are applied IN PLACE to the caller's `p`
array (no clone, unlike `cpp_qgev`), and the quantile loop then reads the
mutated array.  The first component of the result is the caller's array as
the call leaves it. -/
noncomputable def cpp_qkumar (p a b : List ℝ) (lower_tail log_prob : Bool) :
    List ℝ × List Dbl :=
  let p1 := if log_prob then p.map Real.exp else p
  let p2 := if lower_tail then p1 else p1.map (fun v => 1 - v)
  let q := (List.range (max p.length (max a.length b.length))).map
    (fun i => invcdf_kumar (p2.getD (i % p.length) 0) (a.getD (i % a.length) 0)
      (b.getD (i % b.length) 0))
  (p2, q)

/-! ## Power distribution (power-distribution.cpp) -/

/-- `cdf_power` (raw scale): NaN for `x < 0`, closed form on `(0, α)`,
1 at and above `α`, 0 otherwise. -/
noncomputable def cdf_power (x alpha beta : ℝ) : Dbl :=
  if x < 0 then Dbl.nan
  else if 0 < x ∧ x < alpha then Dbl.fin (x ^ beta / alpha ^ beta)
  else if alpha ≤ x then Dbl.fin 1
  else Dbl.fin 0

/-- `invcdf_power`: NaN for `p` outside `[0,1]`, else `α · p^(1/β)`.
(The case `β = 0`, where the C code divides by zero in the exponent, is
outside this finite-real model.) -/
noncomputable def invcdf_power (p alpha beta : ℝ) : Dbl :=
  if p < 0 ∨ 1 < p then Dbl.nan
  else Dbl.fin (alpha * p ^ (1/beta))

/-- `logcdf_power`, the function `cpp_ppower`'s main loop actually stores:
the LOG of the cdf (0 at and above `α`, `-∞` at and below 0). -/
noncomputable def logcdf_power (x alpha beta : ℝ) : Dbl :=
  if x < 0 then Dbl.nan
  else if 0 < x ∧ x < alpha then
    Dbl.fin (Real.log x * beta - Real.log alpha * beta)
  else if alpha ≤ x then Dbl.fin 0
  else Dbl.ninf

/-- Loop bodies of `cpp_ppower` for one position, in the code's order:
store the log-cdf, apply the `!lower_tail` complement `p = 1-p` TO THAT
LOG-SCALE VALUE, then apply `exp` when raw probabilities were requested. -/
noncomputable def ppower1 (x alpha beta : ℝ) (lower_tail log_prob : Bool) : Dbl :=
  let p := logcdf_power x alpha beta
  let p2 := if lower_tail then p else oneSub p
  if log_prob then p2 else dexp p2

/-- The round trip `invcdf_kumar (cdf_kumar x)`; the cdf never produces an
infinity, and a NaN cdf result propagates (in C, NaN fails the range
checks' comparisons and falls into the NaN branch). -/
noncomputable def kumarRT (x a b : ℝ) : Dbl :=
  match cdf_kumar x a b with
  | Dbl.fin p => invcdf_kumar p a b
  | _ => Dbl.nan

/-- The round trip `invcdf_power (cdf_power x)`. -/
noncomputable def powerRT (x alpha beta : ℝ) : Dbl :=
  match cdf_power x alpha beta with
  | Dbl.fin p => invcdf_power p alpha beta
  | _ => Dbl.nan

/-! ## Proof development: scan lemmas and the claim theorems -/

theorem goodL_take (l : List ℚ) (n : ℕ) (h : goodL l) : goodL (l.take n) :=
  fun p hp => h p (List.take_subset n l hp)

theorem goodL_drop (l : List ℚ) (n : ℕ) (h : goodL l) : goodL (l.drop n) :=
  fun p hp => h p (List.drop_subset n l hp)

theorem goodL_of_parts (l : List ℚ) (n : ℕ) (h1 : goodL (l.take n))
    (h2 : goodL (l.drop n)) : goodL l := by
  intro p hp
  rw [← List.take_append_drop n l] at hp
  rcases List.mem_append.mp hp with hp | hp
  · exact h1 p hp
  · exact h2 p hp

theorem scanRow_good (l : List ℚ) (a : ℚ) (h : goodL l) :
    scanRow l a = (false, a + l.sum, l.length) := by
  induction l generalizing a with
  | nil => simp [scanRow]
  | cons q rest ih =>
    have hq := h q (List.mem_cons_self q rest)
    have hrest : goodL rest := fun p hp => h p (List.mem_cons_of_mem q hp)
    have hcond : ¬ (q < 0 ∨ 1 < q) := by
      push_neg
      exact ⟨hq.1, hq.2⟩
    rw [scanRow, if_neg hcond, ih _ hrest]
    simp [List.sum_cons, add_assoc]

theorem scanRow_bad (l : List ℚ) (a : ℚ) (h : ¬ goodL l) : (scanRow l a).1 = true := by
  induction l generalizing a with
  | nil =>
    exact absurd (by intro p hp; simp at hp) h
  | cons q rest ih =>
    by_cases hq : q < 0 ∨ 1 < q
    · rw [scanRow, if_pos hq]
    · have hrest : ¬ goodL rest := by
        intro hg
        apply h
        intro p hp
        rcases List.mem_cons.mp hp with rfl | hp
        · have hqb := hq
          push_neg at hqb
          exact hqb
        · exact hg p hp
      rw [scanRow, if_neg hq]
      exact ih _ hrest

theorem scanRow_take_good (l : List ℚ) (a : ℚ) :
    goodL (l.take (scanRow l a).2.2) := by
  induction l generalizing a with
  | nil => intro p hp; simp at hp
  | cons q rest ih =>
    by_cases hq : q < 0 ∨ 1 < q
    · rw [scanRow, if_pos hq]
      intro p hp
      simp at hp
    · have hqb := hq
      push_neg at hqb
      rw [scanRow, if_neg hq]
      intro p hp
      rw [List.take_succ_cons] at hp
      rcases List.mem_cons.mp hp with rfl | hp
      · exact hqb
      · exact ih (a + q) p hp

theorem scanRow_acc (l : List ℚ) (a : ℚ) :
    (scanRow l a).2.1 = a + (l.take (scanRow l a).2.2).sum := by
  induction l generalizing a with
  | nil => simp [scanRow]
  | cons q rest ih =>
    by_cases hq : q < 0 ∨ 1 < q
    · rw [scanRow, if_pos hq]
      simp
    · rw [scanRow, if_neg hq]
      simp only [List.take_succ_cons, List.sum_cons]
      rw [ih (a + q)]
      ring

theorem scanRow_complete (l : List ℚ) (a : ℚ) (h : (scanRow l a).1 = false) :
    (scanRow l a).2.2 = l.length := by
  induction l generalizing a with
  | nil => simp [scanRow]
  | cons q rest ih =>
    by_cases hq : q < 0 ∨ 1 < q
    · rw [scanRow, if_pos hq] at h
      simp at h
    · rw [scanRow, if_neg hq] at h ⊢
      simp only [List.length_cons]
      rw [ih _ h]

theorem qscan_good_false (pv : ℚ) (l : List ℚ) (a : ℚ) (h : goodL l) :
    (qscan pv l a).1 = false := by
  induction l generalizing a with
  | nil => simp [qscan]
  | cons q rest ih =>
    by_cases hstop : ¬ a < pv
    · rw [qscan, if_pos hstop]
    · have hq : ¬ (q < 0 ∨ 1 < q) := by
        have hqb := h q (List.mem_cons_self q rest)
        push_neg
        exact ⟨hqb.1, hqb.2⟩
      rw [qscan, if_neg hstop, if_neg hq]
      exact ih (a + q) (fun p hp => h p (List.mem_cons_of_mem q hp))

theorem qscan_take_good (pv : ℚ) (l : List ℚ) (a : ℚ) :
    goodL (l.take (qscan pv l a).2.2) := by
  induction l generalizing a with
  | nil => intro p hp; simp at hp
  | cons q rest ih =>
    by_cases hstop : ¬ a < pv
    · rw [qscan, if_pos hstop]
      intro p hp
      simp at hp
    · by_cases hq : q < 0 ∨ 1 < q
      · rw [qscan, if_neg hstop, if_pos hq]
        intro p hp
        simp at hp
      · have hqb := hq
        push_neg at hqb
        rw [qscan, if_neg hstop, if_neg hq]
        intro p hp
        rw [List.take_succ_cons] at hp
        rcases List.mem_cons.mp hp with rfl | hp
        · exact hqb
        · exact ih (a + q) p hp

theorem qscan_acc (pv : ℚ) (l : List ℚ) (a : ℚ) :
    (qscan pv l a).2.1 = a + (l.take (qscan pv l a).2.2).sum := by
  induction l generalizing a with
  | nil => simp [qscan]
  | cons q rest ih =>
    by_cases hstop : ¬ a < pv
    · rw [qscan, if_pos hstop]
      simp
    · by_cases hq : q < 0 ∨ 1 < q
      · rw [qscan, if_neg hstop, if_pos hq]
        simp
      · rw [qscan, if_neg hstop, if_neg hq]
        simp only [List.take_succ_cons, List.sum_cons]
        rw [ih (a + q)]
        ring

theorem qscan_stopped (pv : ℚ) (l : List ℚ) (a : ℚ) (hg : goodL l)
    (hstop : pv ≤ a + l.sum) :
    pv ≤ a + (l.take (qscan pv l a).2.2).sum ∧
      ∀ m < (qscan pv l a).2.2, a + (l.take m).sum < pv := by
  induction l generalizing a with
  | nil =>
    refine ⟨by simpa using hstop, ?_⟩
    intro m hm
    rw [qscan] at hm
    simp at hm
  | cons q rest ih =>
    by_cases hstop2 : ¬ a < pv
    · rw [qscan, if_pos hstop2]
      push_neg at hstop2
      exact ⟨by simpa using hstop2, by intro m hm; simp at hm⟩
    · have hq : ¬ (q < 0 ∨ 1 < q) := by
        have hqb := hg q (List.mem_cons_self q rest)
        push_neg
        exact ⟨hqb.1, hqb.2⟩
      rw [qscan, if_neg hstop2, if_neg hq]
      have hrest : goodL rest := fun p hp => hg p (List.mem_cons_of_mem q hp)
      have hstop3 : pv ≤ (a + q) + rest.sum := by
        rw [List.sum_cons] at hstop
        linarith
      obtain ⟨h1, h2⟩ := ih (a + q) hrest hstop3
      constructor
      · simpa [List.take_succ_cons, List.sum_cons, add_assoc] using h1
      · intro m hm
        match m with
        | 0 =>
          push_neg at hstop2
          simpa using hstop2
        | Nat.succ m' =>
          have hm' : m' < (qscan pv rest (a + q)).2.2 := by
            simpa using hm
          have := h2 m' hm'
          simpa [List.take_succ_cons, List.sum_cons, add_assoc] using this

theorem qscan_at_zero (pv : ℚ) (l : List ℚ) (a : ℚ) (h : pv ≤ a) :
    qscan pv l a = (false, a, 0) := by
  cases l with
  | nil => rw [qscan]
  | cons q rest => rw [qscan, if_pos (not_lt.mpr h)]

/-- After a partial scan that consumed the (all in-range) prefix `l.take j`
and accumulated its sum, the validation pass over the remaining suffix
rejects every invalid row. -/
theorem suffix_invalid (row : List ℚ) (j : ℕ) (hg : goodL (row.take j))
    (hinv : ¬ validRow row) :
    (scanRow (row.drop j) (row.take j).sum).2.1 ≠ 1 ∨
      (scanRow (row.drop j) (row.take j).sum).1 = true := by
  by_cases hgood : goodL row
  · left
    rw [scanRow_good _ _ (goodL_drop row j hgood), List.sum_take_add_sum_drop]
    intro h1
    exact hinv ⟨hgood, h1⟩
  · right
    apply scanRow_bad
    intro hd
    exact hgood (goodL_of_parts row j hg hd)

/-- The validation pass over the suffix accepts every valid row. -/
theorem suffix_valid (row : List ℚ) (j : ℕ) (hv : validRow row) :
    scanRow (row.drop j) (row.take j).sum =
      (false, 1, (row.drop j).length) := by
  rw [scanRow_good _ _ (goodL_drop row j hv.1), List.sum_take_add_sum_drop, hv.2]

theorem dcat1_invalid (xv : ℚ) (row : List ℚ) (h : ¬ validRow row) :
    dcat1 xv row = none := by
  have h5 := suffix_invalid row 0 (by intro p hp; simp at hp) h
  simp only [List.drop_zero, List.take_zero, List.sum_nil] at h5
  simp only [dcat1]
  rcases h5 with h1 | h1 <;> simp [h1]

theorem pcat1_invalid (xv : ℚ) (row : List ℚ) (hinv : ¬ validRow row)
    (h1 : 1 ≤ xv) (h2 : xv ≤ (row.length : ℚ)) : pcat1 xv row = none := by
  simp only [pcat1]
  rw [if_neg (not_lt.mpr h1), if_neg (not_lt.mpr h2)]
  set m := min (⌊xv⌋).toNat row.length with hm
  set f := scanRow (row.take m) 0 with hf
  by_cases hw : f.1 = true
  · simp [hw]
  · have hff : f.1 = false := by simpa using hw
    have hj : f.2.2 = (row.take m).length := by
      rw [hf]
      exact scanRow_complete _ _ (hf ▸ hff)
    have hlen : (row.take m).length = m := by
      rw [List.length_take]
      exact min_eq_left (min_le_right _ _)
    have hgood : goodL (row.take m) := by
      have h3 := scanRow_take_good (row.take m) 0
      rw [← hf, hj, List.take_length] at h3
      exact h3
    have hacc : f.2.1 = (row.take m).sum := by
      have h4 := scanRow_acc (row.take m) 0
      rw [← hf, hj, List.take_length] at h4
      simpa using h4
    have hjm : f.2.2 = m := hj.trans hlen
    rcases suffix_invalid row m hgood hinv with h5 | h5 <;>
      simp [hjm, hacc, h5]

theorem qcat1_invalid (pv : ℚ) (row : List ℚ) (hinv : ¬ validRow row) :
    qcat1 pv row = none := by
  simp only [qcat1]
  by_cases hp : pv < 0 ∨ 1 < pv
  · rw [if_pos hp]
  · rw [if_neg hp]
    set f := qscan pv row 0 with hf
    by_cases hw : f.1 = true
    · simp [hw]
    · have hgood : goodL (row.take f.2.2) := by
        have h3 := qscan_take_good pv row 0
        rwa [← hf] at h3
      have hacc : f.2.1 = (row.take f.2.2).sum := by
        have h4 := qscan_acc pv row 0
        rw [← hf] at h4
        simpa using h4
      rcases suffix_invalid row f.2.2 hgood hinv with h5 | h5 <;>
        simp [hacc, h5]

theorem rcat1_invalid (u : ℚ) (row : List ℚ) (hinv : ¬ validRow row) :
    rcat1 u row = none := by
  simp only [rcat1]
  set f := qscan u row 0 with hf
  by_cases hw : f.1 = true
  · simp [hw]
  · have hgood : goodL (row.take f.2.2) := by
      have h3 := qscan_take_good u row 0
      rwa [← hf] at h3
    have hacc : f.2.1 = (row.take f.2.2).sum := by
      have h4 := qscan_acc u row 0
      rw [← hf] at h4
      simpa using h4
    rcases suffix_invalid row f.2.2 hgood hinv with h5 | h5 <;>
      simp [hacc, h5]

theorem qcat1_valid_zero (row : List ℚ) (hv : validRow row) :
    qcat1 0 row = some 1 := by
  simp only [qcat1]
  rw [if_neg (by norm_num), qscan_at_zero 0 row 0 le_rfl]
  have h5 := suffix_valid row 0 hv
  simp only [List.drop_zero, List.take_zero, List.sum_nil] at h5
  simp [h5]

theorem qcat1_valid_pos (pv : ℚ) (row : List ℚ) (hv : validRow row)
    (h0 : 0 < pv) (h1 : pv ≤ 1) :
    ∃ j : ℕ, qcat1 pv row = some j ∧ 1 ≤ j ∧ pv ≤ (row.take j).sum ∧
      ∀ m < j, (row.take m).sum < pv := by
  simp only [qcat1]
  rw [if_neg (by push_neg; exact ⟨le_of_lt h0, h1⟩)]
  set f := qscan pv row 0 with hf
  have hffalse : f.1 = false := by
    rw [hf]
    exact qscan_good_false pv row 0 hv.1
  have hacc : f.2.1 = (row.take f.2.2).sum := by
    have h4 := qscan_acc pv row 0
    rw [← hf] at h4
    simpa using h4
  have hstop := qscan_stopped pv row 0 hv.1 (by rw [hv.2]; simpa using h1)
  rw [← hf] at hstop
  simp only [zero_add] at hstop
  have hj1 : 1 ≤ f.2.2 := by
    rcases Nat.eq_zero_or_pos f.2.2 with hz | hz
    · exfalso
      have h6 := hstop.1
      rw [hz] at h6
      simp at h6
      linarith
    · exact hz
  refine ⟨f.2.2, ?_, hj1, hstop.1, hstop.2⟩
  rw [hacc]
  simp [suffix_valid row f.2.2 hv, hffalse, h0.ne']

/-- C1 (code bug witness): `cpp_dcat` does not follow the recycling contract.
With `x = [1]` (length 1) and a 2-row probability matrix, `Nmax = 2`; at
`i = 1` the code reads `x[1]`, past the end of `x` — an out-of-bounds read,
modelled here by the call returning `none` — whereas the contract's read at
`1 mod 1 = 0` would have produced the well-defined per-position value
`dcat1 1 [1] = some 1`. -/
theorem cpp_dcat_reads_x_at_raw_index :
    cpp_dcat [1] [[1], [1]] false = none ∧ dcat1 1 [1] = some 1 := by
  constructor
  · have h : dcat_loop [1] [[1], [1]] = none := by
      norm_num [dcat_loop, List.range_succ, dcat_go, dcat1, scanRow]
    simp [cpp_dcat, h]
  · norm_num [dcat1, scanRow]

/-- C3 (amended): an invalid recycled row — any entry outside `[0,1]` or
full-row sum not exactly 1, including in the suffix beyond the prefix the
operation's own computation needs — yields the NaN sentinel for the density,
inverse-cumulative and sampling loop bodies at every input, and for the
cumulative loop body whenever `1 ≤ x ≤ k`; but the cumulative operation
short-circuits to `0` for `x < 1` and to `1` for `x > k` without validating
the row. -/
theorem categorical_invalid_row_nan (xv pv u : ℚ) (row : List ℚ) :
    (¬ validRow row →
        dcat1 xv row = none
      ∧ (1 ≤ xv → xv ≤ (row.length : ℚ) → pcat1 xv row = none)
      ∧ qcat1 pv row = none
      ∧ rcat1 u row = none)
  ∧ (xv < 1 → pcat1 xv row = some 0)
  ∧ (1 ≤ xv → (row.length : ℚ) < xv → pcat1 xv row = some 1) := by
  refine ⟨fun h => ⟨dcat1_invalid xv row h,
      fun h1 h2 => pcat1_invalid xv row h h1 h2,
      qcat1_invalid pv row h, rcat1_invalid u row h⟩, ?_, ?_⟩
  · intro h
    simp only [pcat1]
    rw [if_pos h]
  · intro h1 h2
    simp only [pcat1]
    rw [if_neg (not_lt.mpr h1), if_pos h2]

/-- C3 counterexample: the row `[3/2]` is invalid (entry above 1), yet the
cumulative operation at `x = 0` returns `0`, not the NaN sentinel, because
the `x < 1` short-circuit fires before any row validation. -/
theorem cpp_pcat_invalid_row_counterexample :
    ¬ validRow [3/2] ∧ pcat1 0 [3/2] = some 0 ∧ pcat1 0 [3/2] ≠ none := by
  refine ⟨?_, ?_, ?_⟩
  · intro hv
    have := hv.1 (3/2) (by simp)
    linarith [this.2]
  · norm_num [pcat1]
  · intro hc
    norm_num [pcat1] at hc
    exact Option.noConfusion hc

/-- C6: the inverse-cumulative loop body returns NaN when the row is invalid
or `p` lies outside `[0,1]`; on a valid row it returns category 1 at `p = 0`,
and for `0 < p ≤ 1` it returns the 1-based index at which the running
cumulative sum of the row first reaches or exceeds `p` — in particular, for
`p` exactly equal to a prefix cumulative sum, the category at which that
prefix sum is first reached. -/
theorem cpp_qcat_inverse_cumulative_spec (pv : ℚ) (row : List ℚ) :
    (¬ validRow row → qcat1 pv row = none)
  ∧ (pv < 0 ∨ 1 < pv → qcat1 pv row = none)
  ∧ (validRow row → pv = 0 → qcat1 pv row = some 1)
  ∧ (validRow row → 0 < pv → pv ≤ 1 →
      ∃ j : ℕ, qcat1 pv row = some j ∧ 1 ≤ j ∧ pv ≤ (row.take j).sum ∧
        ∀ m < j, (row.take m).sum < pv) := by
  refine ⟨fun h => qcat1_invalid pv row h, fun h => ?_,
    fun hv h0 => by rw [h0]; exact qcat1_valid_zero row hv,
    fun hv h0 h1 => qcat1_valid_pos pv row hv h0 h1⟩
  simp only [qcat1]
  rw [if_pos h]

theorem dmnomScan_good (lfact : ℚ → ℝ) (prow xrow : List ℚ)
    (hlen : xrow.length = prow.length) (hp : goodL prow)
    (hx : goodCounts xrow) :
    (dmnomScan lfact prow xrow).wrongP = false ∧
    (dmnomScan lfact prow xrow).wrongX = false ∧
    (dmnomScan lfact prow xrow).sumP = prow.sum ∧
    (dmnomScan lfact prow xrow).sumX = xrow.sum := by
  induction prow generalizing xrow with
  | nil =>
    have : xrow = [] := List.length_eq_zero.mp hlen
    subst this
    simp [dmnomScan]
  | cons pj prest ih =>
    cases xrow with
    | nil => simp at hlen
    | cons xj xrest =>
      have hpj := hp pj (List.mem_cons_self pj prest)
      have hxj := hx xj (List.mem_cons_self xj xrest)
      have hc1 : ¬ (pj < 0 ∨ 1 < pj) := by
        push_neg
        exact ⟨hpj.1, hpj.2⟩
      have hc2 : ¬ (xj < 0 ∨ (⌊xj⌋ : ℚ) ≠ xj) := by
        push_neg
        exact ⟨hxj.1, hxj.2⟩
      have hlen' : xrest.length = prest.length := by simpa using hlen
      have hp' : goodL prest := fun p h => hp p (List.mem_cons_of_mem pj h)
      have hx' : goodCounts xrest := fun c h => hx c (List.mem_cons_of_mem xj h)
      obtain ⟨e1, e2, e3, e4⟩ := ih xrest hlen' hp' hx'
      rw [dmnomScan, if_neg hc1, if_neg hc2]
      exact ⟨e1, e2, by simp [e3], by simp [e4]⟩

theorem dmnomScan_wrongX (lfact : ℚ → ℝ) (prow xrow : List ℚ)
    (hlen : xrow.length = prow.length) (hp : goodL prow)
    (hx : ¬ goodCounts xrow) :
    (dmnomScan lfact prow xrow).wrongX = true := by
  induction prow generalizing xrow with
  | nil =>
    have : xrow = [] := List.length_eq_zero.mp hlen
    subst this
    exact absurd (by intro c hc; simp at hc) hx
  | cons pj prest ih =>
    cases xrow with
    | nil => simp at hlen
    | cons xj xrest =>
      have hpj := hp pj (List.mem_cons_self pj prest)
      have hc1 : ¬ (pj < 0 ∨ 1 < pj) := by
        push_neg
        exact ⟨hpj.1, hpj.2⟩
      by_cases hc2 : xj < 0 ∨ (⌊xj⌋ : ℚ) ≠ xj
      · rw [dmnomScan, if_neg hc1, if_pos hc2]
      · have hx' : ¬ goodCounts xrest := by
          intro hg
          apply hx
          intro c hc
          rcases List.mem_cons.mp hc with rfl | hc
          · have hcb := hc2
            push_neg at hcb
            exact hcb
          · exact hg c hc
        have hlen' : xrest.length = prest.length := by simpa using hlen
        have hp' : goodL prest := fun p h => hp p (List.mem_cons_of_mem pj h)
        rw [dmnomScan, if_neg hc1, if_neg hc2]
        exact ih xrest hlen' hp' hx'

theorem dmnomScan_no_break (lfact : ℚ → ℝ) (prow xrow : List ℚ)
    (hlen : xrow.length = prow.length)
    (hP : (dmnomScan lfact prow xrow).wrongP = false)
    (hX : (dmnomScan lfact prow xrow).wrongX = false) :
    goodL prow ∧ (dmnomScan lfact prow xrow).sumP = prow.sum := by
  induction prow generalizing xrow with
  | nil =>
    have : xrow = [] := List.length_eq_zero.mp hlen
    subst this
    exact ⟨by intro p hp; simp at hp, by simp [dmnomScan]⟩
  | cons pj prest ih =>
    cases xrow with
    | nil => simp at hlen
    | cons xj xrest =>
      by_cases hc1 : pj < 0 ∨ 1 < pj
      · rw [dmnomScan, if_pos hc1] at hP
        simp at hP
      · by_cases hc2 : xj < 0 ∨ (⌊xj⌋ : ℚ) ≠ xj
        · rw [dmnomScan, if_neg hc1, if_pos hc2] at hX
          simp at hX
        · rw [dmnomScan, if_neg hc1, if_neg hc2] at hP hX ⊢
          have hlen' : xrest.length = prest.length := by simpa using hlen
          obtain ⟨g1, g2⟩ := ih xrest hlen' hP hX
          refine ⟨?_, by simp [g2]⟩
          intro p hp
          rcases List.mem_cons.mp hp with rfl | hp
          · have hcb := hc1
            push_neg at hcb
            exact hcb
          · exact g1 p hp

/-- C4 (amended): with a well-formed probability row, a structurally
impossible outcome yields log-probability `-∞` (probability 0 after `exp`),
never NaN.  An invalid probability row yields NaN provided the outcome is
structurally valid and the row's entries are all within `[0,1]` (so that no
early break truncates the count sum); a row with an entry outside `[0,1]`
can instead yield `-∞`, because the structural check, tested first, then
sees a truncated count sum.  An invalid row never reaches the probability
formula: the result is always NaN or `-∞`. -/
theorem cpp_dmnom_error_classification (lfact : ℚ → ℝ) (xrow prow : List ℚ)
    (size : ℚ) (hlen : xrow.length = prow.length) :
    (validRow prow → ¬ structOK xrow size →
        dmnom1 lfact xrow size prow = Dbl.ninf
      ∧ dmnom1 lfact xrow size prow ≠ Dbl.nan
      ∧ cpp_dmnom1 lfact xrow size prow false = Dbl.fin 0)
  ∧ (goodL prow → prow.sum ≠ 1 → structOK xrow size →
      dmnom1 lfact xrow size prow = Dbl.nan)
  ∧ (¬ validRow prow →
      dmnom1 lfact xrow size prow = Dbl.nan ∨
      dmnom1 lfact xrow size prow = Dbl.ninf) := by
  refine ⟨?_, ?_, ?_⟩
  · intro hv hbad
    have hninf : dmnom1 lfact xrow size prow = Dbl.ninf := by
      by_cases hx : goodCounts xrow
      · obtain ⟨e1, e2, e3, e4⟩ := dmnomScan_good lfact prow xrow hlen hv.1 hx
        have hcase : xrow.sum ≠ size ∨ (⌊size⌋ : ℚ) ≠ size := by
          by_contra hcon
          push_neg at hcon
          exact hbad ⟨hx, hcon.1, hcon.2⟩
        simp only [dmnom1]
        rcases hcase with hc | hc
        · rw [if_pos (by right; right; left; rw [e4]; exact hc)]
        · rw [if_pos (by left; exact hc)]
      · have hX := dmnomScan_wrongX lfact prow xrow hlen hv.1 hx
        simp only [dmnom1]
        rw [if_pos (by right; right; right; exact hX)]
    refine ⟨hninf, by rw [hninf]; exact fun hc => Dbl.noConfusion hc, ?_⟩
    simp [cpp_dmnom1, hninf, dexp]
  · intro hg hs hok
    obtain ⟨e1, e2, e3, e4⟩ := dmnomScan_good lfact prow xrow hlen hg hok.1
    have hsize : 0 ≤ size := by
      rw [← hok.2.1]
      exact List.sum_nonneg (fun c hc => (hok.1 c hc).1)
    have hcond1 : ¬ ((⌊size⌋ : ℚ) ≠ size ∨
        (dmnomScan lfact prow xrow).sumX < 0 ∨
        (dmnomScan lfact prow xrow).sumX ≠ size ∨
        (dmnomScan lfact prow xrow).wrongX = true) := by
      push_neg
      refine ⟨hok.2.2, ?_, ?_, by simp [e2]⟩
      · rw [e4, hok.2.1]
        exact hsize
      · rw [e4, hok.2.1]
    have hcond2 : (dmnomScan lfact prow xrow).sumP ≠ 1 ∨
        (dmnomScan lfact prow xrow).wrongP = true := by
      left
      rw [e3]
      exact hs
    simp only [dmnom1]
    rw [if_neg hcond1, if_pos hcond2]
  · intro hv
    by_cases h1 : (⌊size⌋ : ℚ) ≠ size ∨ (dmnomScan lfact prow xrow).sumX < 0 ∨
        (dmnomScan lfact prow xrow).sumX ≠ size ∨
        (dmnomScan lfact prow xrow).wrongX = true
    · right
      simp only [dmnom1]
      rw [if_pos h1]
    · left
      have h1n := h1
      push_neg at h1
      have hXf : (dmnomScan lfact prow xrow).wrongX = false := by
        simpa using h1.2.2.2
      have hcond2 : (dmnomScan lfact prow xrow).sumP ≠ 1 ∨
          (dmnomScan lfact prow xrow).wrongP = true := by
        by_cases hP : (dmnomScan lfact prow xrow).wrongP = true
        · right
          exact hP
        · left
          obtain ⟨g1, g2⟩ := dmnomScan_no_break lfact prow xrow hlen
            (by simpa using hP) hXf
          rw [g2]
          intro hsum
          exact hv ⟨g1, hsum⟩
      simp only [dmnom1]
      rw [if_neg h1n, if_pos hcond2]

/-- C4 counterexample: the probability row `[3/2, -1/2]` violates the
simplex (entries out of range) while the outcome `[1,1]` with `size = 2` is
structurally possible, yet the result is `-∞`, not NaN: the scan breaks at
the first entry, the truncated count sum `0` mismatches `size`, and the
structural check is tested first. -/
theorem cpp_dmnom_invalid_row_counterexample :
    dmnom1 (fun _ => 0) [1, 1] 2 [3/2, -1/2] = Dbl.ninf ∧
    ¬ validRow [3/2, -1/2] ∧
    structOK [1, 1] 2 ∧
    dmnom1 (fun _ => 0) [1, 1] 2 [3/2, -1/2] ≠ Dbl.nan := by
  have heval : dmnom1 (fun _ => 0) [1, 1] 2 [3/2, -1/2] = Dbl.ninf := by
    norm_num [dmnom1, dmnomScan]
  refine ⟨heval, ?_, ?_, by rw [heval]; exact fun hc => Dbl.noConfusion hc⟩
  · intro hv
    have h2 := hv.1 (3/2) (by simp)
    linarith [h2.2]
  · refine ⟨?_, by norm_num, by norm_num⟩
    intro c hc
    rcases List.mem_cons.mp hc with rfl | hc
    · norm_num
    · rcases List.mem_cons.mp hc with rfl | hc
      · norm_num
      · simp at hc

/-- C4 witness: a concrete instance of the amended classification — a row
summing to `1/2` (entries in range) with a structurally valid outcome gives
NaN. -/
theorem cpp_dmnom_error_classification_witness :
    dmnom1 (fun _ => 0) [1, 1] 2 [1/4, 1/4] = Dbl.nan := by
  refine (cpp_dmnom_error_classification (fun _ => 0) [1, 1] [1/4, 1/4] 2
    rfl).2.1 ?_ (by norm_num) ?_
  · intro p hp
    rcases List.mem_cons.mp hp with rfl | hp
    · norm_num
    · rcases List.mem_cons.mp hp with rfl | hp
      · norm_num
      · simp at hp
  · refine ⟨?_, by norm_num, by norm_num⟩
    intro c hc
    rcases List.mem_cons.mp hc with rfl | hc
    · norm_num
    · rcases List.mem_cons.mp hc with rfl | hc
      · norm_num
      · simp at hc

/-- C5 (code bug witness): for the row `[1/5, 3/10, 1/2]` with `size = 2`
and draw results `[1, 0]`, the two binomial calls the sampler issues are
`(trials 2, p 1/5)` and `(trials 1, p 1/5)`: the second call's success
probability is the row's FIRST entry `1/5` (the linear `prob[i % np]`
index), not that category's own probability `prob(row, 1) = 3/10` as the
claim states.  The trials arguments do follow the remaining budget. -/
theorem cpp_rmnom_binomial_prob_bug :
    (cpp_rmnom_row [1/5, 3/10, 1/2] 2 [1, 0]).2 =
      [⟨2, 1/5⟩, ⟨1, 1/5⟩] ∧
    [(1 : ℚ)/5, 3/10, 1/2].getD 1 0 = 3/10 ∧
    ((1 : ℚ)/5) ≠ 3/10 := by
  refine ⟨?_, by norm_num, by norm_num⟩
  norm_num [cpp_rmnom_row, rmnomDraws]

/-- C8: at shape `ξ = 0` and `σ > 0` the GEV density equals the Gumbel
limit `exp(-z)·exp(-exp(-z))/σ` with `z = (x-μ)/σ`, for every `x`; and the
GEV inverse-cdf at `p = 1` returns `+∞` for every `μ`, `σ > 0`, `ξ`. -/
theorem gev_gumbel_limit_and_quantile_at_one (x mu sigma xi : ℝ) :
    (0 < sigma →
      pdf_gev x mu sigma 0 =
        Dbl.fin (Real.exp (-((x - mu)/sigma)) *
          Real.exp (-Real.exp (-((x - mu)/sigma))) / sigma))
  ∧ (0 < sigma → invcdf_gev 1 mu sigma xi = Dbl.pinf) := by
  constructor
  · intro hs
    simp only [pdf_gev]
    rw [if_neg (not_le.mpr hs)]
    norm_num
    ring
  · intro hs
    simp only [invcdf_gev]
    rw [if_neg (by push_neg; exact ⟨hs, by norm_num, by norm_num⟩)]
    simp

/-- C9 (code bug witness): `cpp_qkumar` with `lower_tail = false` hands back
the caller's `p` array overwritten with `1 - p` (here `[1/4] ↦ [3/4]`),
while `cpp_qgev` on the same input returns it unchanged — the clone that
`cpp_qkumar`, `cpp_qpower` and `cpp_qcat` are missing. -/
theorem cpp_qkumar_mutates_input_array :
    (cpp_qkumar [1/4] [1] [1] false false).1 = [3/4] ∧
    ((3 : ℝ)/4) ≠ 1/4 ∧
    (cpp_qgev [1/4] [0] [1] [0] false false).1 = [1/4] := by
  refine ⟨?_, by norm_num, ?_⟩
  · simp only [cpp_qkumar]
    norm_num
  · simp only [cpp_qgev]

/-- C10: for `a > 0`, `b > 0` the Kumaraswamy cumulative operation (lower
tail, raw probability) returns 0 at every `x` outside `[0,1]` — above the
support (`x > 1`) as well as below it — not 1. -/
theorem cpp_pkumar_zero_above_support (x a b : ℝ) (ha : 0 < a) (hb : 0 < b)
    (hx : 1 < x ∨ x < 0) : pkumar1 x a b true false = Dbl.fin 0 := by
  have hcdf : cdf_kumar x a b = Dbl.fin 0 := by
    simp only [cdf_kumar]
    rw [if_neg (by push_neg; exact ⟨ha, hb⟩), if_neg ?_]
    rcases hx with h | h
    · intro hc
      linarith [hc.2]
    · intro hc
      linarith [hc.1]
  simp [pkumar1, hcdf]

/-- C10 witness: at `x = 2`, `a = b = 1` the cumulative value is 0. -/
theorem cpp_pkumar_zero_above_support_witness :
    pkumar1 2 1 1 true false = Dbl.fin 0 :=
  cpp_pkumar_zero_above_support 2 1 1 (by norm_num) (by norm_num)
    (Or.inl (by norm_num))

/-- C2 (code bug witness): at `x = 1`, `α = 2`, `β = 1` the lower-tail raw
cdf is `1/2`, so the survival probability is `1 - 1/2 = 1/2`; but
`cpp_ppower` with `lower_tail = false` complements the stored LOG-cdf and
then exponentiates, returning `exp(1 + log 2) = 2e ≈ 5.44`, which is not
the survival probability. -/
theorem cpp_ppower_upper_tail_log_space_bug :
    ppower1 1 2 1 true false = Dbl.fin (1/2) ∧
    ppower1 1 2 1 false false = Dbl.fin (2 * Real.exp 1) ∧
    (2 * Real.exp 1) ≠ 1 - (1/2 : ℝ) := by
  have hlog : logcdf_power 1 2 1 = Dbl.fin (-Real.log 2) := by
    simp only [logcdf_power]
    rw [if_neg (by norm_num), if_pos (by norm_num)]
    rw [Real.log_one]
    norm_num
  refine ⟨?_, ?_, ?_⟩
  · simp only [ppower1, hlog, if_true, dexp]
    rw [Real.exp_neg, Real.exp_log (by norm_num : (0:ℝ) < 2)]
    norm_num
  · simp only [ppower1, hlog]
    norm_num [oneSub, dexp]
    rw [Real.exp_add, Real.exp_log (by norm_num : (0:ℝ) < 2)]
    ring
  · have h := Real.add_one_le_exp 1
    nlinarith

/-- C7 counterexample: for the power distribution with `α = 1`, `β = -1`
and `x = 1/2` strictly inside the support `(0, α)`, the cdf value is
`(1/2)^(-1) = 2 > 1`, so the inverse-cdf rejects it with NaN: the round
trip does not return `x` — the claim fails without a `β > 0` side
condition. -/
theorem power_roundtrip_counterexample :
    powerRT (1/2) 1 (-1) = Dbl.nan ∧ powerRT (1/2) 1 (-1) ≠ Dbl.fin (1/2) := by
  have hcdf : cdf_power (1/2) 1 (-1) = Dbl.fin 2 := by
    simp only [cdf_power]
    rw [if_neg (by norm_num), if_pos (by norm_num)]
    rw [Real.one_rpow]
    rw [show ((-1 : ℝ)) = ((-1 : ℤ) : ℝ) by norm_num, Real.rpow_intCast]
    norm_num
  have hnan : powerRT (1/2) 1 (-1) = Dbl.nan := by
    simp only [powerRT, hcdf, invcdf_power]
    rw [if_pos (by norm_num)]
  exact ⟨hnan, by rw [hnan]; exact fun hc => Dbl.noConfusion hc⟩

/-- C7 (amended): the Kumaraswamy round trip is the identity on `(0,1)` for
`a > 0`, `b > 0`, and the power round trip is the identity on `(0, α)` for
`β > 0` — an exact identity over the embedded real-valued functions with
`lower_tail = true` and `log_prob = false`. -/
theorem kumar_power_roundtrip (x a b y alpha beta : ℝ) :
    (0 < a → 0 < b → 0 < x → x < 1 → kumarRT x a b = Dbl.fin x)
  ∧ (0 < beta → 0 < y → y < alpha → powerRT y alpha beta = Dbl.fin y) := by
  constructor
  · intro ha hb hx0 hx1
    have hxa1 : x ^ a < 1 := Real.rpow_lt_one (le_of_lt hx0) hx1 ha
    have hxa0 : 0 < x ^ a := Real.rpow_pos_of_pos hx0 a
    have hu1 : (1 - x ^ a) ^ b < 1 := Real.rpow_lt_one (by linarith) (by linarith) hb
    have hu0 : 0 < (1 - x ^ a) ^ b := Real.rpow_pos_of_pos (by linarith) b
    have hcdf : cdf_kumar x a b = Dbl.fin (1 - (1 - x ^ a) ^ b) := by
      simp only [cdf_kumar]
      rw [if_neg (by push_neg; exact ⟨ha, hb⟩),
        if_pos ⟨le_of_lt hx0, le_of_lt hx1⟩]
    simp only [kumarRT, hcdf, invcdf_kumar]
    rw [if_neg (by push_neg; exact ⟨ha, hb, by linarith, by linarith⟩)]
    have hs1 : (1 : ℝ) - (1 - (1 - x ^ a) ^ b) = (1 - x ^ a) ^ b := by ring
    rw [hs1]
    have hs2 : ((1 - x ^ a) ^ b) ^ ((1 : ℝ)/b) = 1 - x ^ a := by
      rw [← Real.rpow_mul (by linarith : (0:ℝ) ≤ 1 - x ^ a),
        mul_one_div_cancel (ne_of_gt hb), Real.rpow_one]
    rw [hs2]
    have hs3 : (1 : ℝ) - (1 - x ^ a) = x ^ a := by ring
    rw [hs3]
    have hs4 : (x ^ a) ^ ((1 : ℝ)/a) = x := by
      rw [← Real.rpow_mul (le_of_lt hx0), mul_one_div_cancel (ne_of_gt ha),
        Real.rpow_one]
    rw [hs4]
  · intro hbeta hy0 hya
    have halpha : 0 < alpha := lt_trans hy0 hya
    have hdiv : y ^ beta / alpha ^ beta = (y / alpha) ^ beta :=
      (Real.div_rpow (le_of_lt hy0) (le_of_lt halpha) beta).symm
    have hq0 : 0 < (y / alpha) ^ beta :=
      Real.rpow_pos_of_pos (div_pos hy0 halpha) beta
    have hq1 : (y / alpha) ^ beta < 1 :=
      Real.rpow_lt_one (le_of_lt (div_pos hy0 halpha))
        ((div_lt_one halpha).mpr hya) hbeta
    have hcdf : cdf_power y alpha beta = Dbl.fin ((y / alpha) ^ beta) := by
      simp only [cdf_power]
      rw [if_neg (not_lt.mpr (le_of_lt hy0)), if_pos ⟨hy0, hya⟩, hdiv]
    simp only [powerRT, hcdf, invcdf_power]
    rw [if_neg (by push_neg; exact ⟨by linarith, by linarith⟩)]
    have hs2 : ((y / alpha) ^ beta) ^ ((1 : ℝ)/beta) = y / alpha := by
      rw [← Real.rpow_mul (le_of_lt (div_pos hy0 halpha)),
        mul_one_div_cancel (ne_of_gt hbeta), Real.rpow_one]
    rw [hs2, mul_comm, div_mul_cancel₀ y (ne_of_gt halpha)]

example : dcat1 2 [1/2, 1/2] = some (1/2) := by norm_num [dcat1, scanRow]

example : dcat1 2 [1/2, 1/4] = none := by norm_num [dcat1, scanRow]

example : pcat1 0 [1/2] = some 0 := by norm_num [pcat1]

example : qcat1 (1/2) [1/2, 1/2] = some 1 := by norm_num [qcat1, qscan, scanRow]

example : qcat1 0 [1/2, 1/2] = some 1 := by norm_num [qcat1, qscan, scanRow]

example : qcat1 (3/4) [1/2, 1/2] = some 2 := by norm_num [qcat1, qscan, scanRow]

example : qcat1 (1/2) [1/2, 3/4] = none := by norm_num [qcat1, qscan, scanRow]

example : rcat1 (1/4) [1/2, 1/2] = some 1 := by norm_num [rcat1, qscan, scanRow]

example : dcat_loop [1] [[1], [1]] = none := by
  norm_num [dcat_loop, List.range_succ, dcat_go, dcat1, scanRow]
